import Mathlib

/-!
Verification of the retrieval pipeline of the prompt-tool repository:
text chunking (`src/services/text-chunker.ts`), mock embeddings and cosine
similarity (`src/services/mock-embeddings.ts`), JSON flattening
(`src/services/content-extractor.ts`), vector similarity search and related
prompt aggregation (`VectorSearchService`), and prompt reindexing
(`src/services/embedding-service.ts`).

JavaScript strings are modelled as lists of characters (`Str`); numeric
similarity scores are modelled as rationals; the real-valued parts
(square roots in vector normalization and cosine similarity) are modelled
over the real numbers.
-/

/-- A JavaScript string, modelled as a list of characters. -/
abbrev Str := List Char

namespace TextChunker

/-- First occurrence of the separator `sep` in `s`: returns the part before
the separator and the part after it, mirroring what one step of JavaScript
`String.prototype.split` consumes. -/
def findSplit (sep : Str) : Str → Option (Str × Str)
  | [] => none
  | c :: rest =>
    if sep.isPrefixOf (c :: rest) then some ([], (c :: rest).drop sep.length)
    else
      match findSplit sep rest with
      | none => none
      | some (p, q) => some (c :: p, q)

/-- Fuelled splitting loop: repeatedly strip the text up to and including the
first occurrence of `sep`.  With fuel `s.length + 1` this computes
JavaScript `s.split(sep)` for a non-empty separator. -/
def splitOnCore (sep : Str) : Nat → Str → List Str
  | 0, s => [s]
  | fuel + 1, s =>
    match findSplit sep s with
    | none => [s]
    | some (p, q) => p :: splitOnCore sep fuel q

/-- JavaScript `text.split(separator)`: an empty separator splits into the
list of single characters (and the empty string into `[]`); a non-empty
separator splits at each occurrence. -/
def jsSplit (sep : Str) (s : Str) : List Str :=
  if sep = [] then s.map (fun c => [c]) else splitOnCore sep (s.length + 1) s

/-- JavaScript `str.slice(-n)` for `n > 0`: the last `n` characters
(the whole string when `n` exceeds its length). -/
def takeRight (n : Nat) (l : Str) : Str := l.drop (l.length - n)

/-- The loop body of `createChunksWithOverlap` for the chunks after the
first: each chunk is prefixed with the trailing `ov` characters of the
previous chunk of the input list. -/
def overlapPass (ov : Nat) : Str → List Str → List Str
  | _, [] => []
  | prev, c :: rest => (takeRight ov prev ++ c) :: overlapPass ov c rest

/-- `TextChunker.createChunksWithOverlap`: returns the chunks unchanged when
the configured overlap is `0` or there is at most one chunk; otherwise
prefixes every chunk except the first with the trailing `ov` characters of
the preceding chunk of the input list. -/
def withOverlap (ov : Nat) (chunks : List Str) : List Str :=
  if ov = 0 ∨ chunks.length ≤ 1 then chunks
  else
    match chunks with
    | [] => []
    | c :: rest => c :: overlapPass ov c rest

/-- `if (currentChunk) chunks.push(currentChunk)`: the buffer is flushed
only when it is non-empty (the empty string is falsy in JavaScript). -/
def flushCur (cur : Str) : List Str := if cur = [] then [] else [cur]

/-- The merge loop of `splitTextRecursive`: greedily accumulate splits
(rejoined with the separator) into `cur` while the result stays within
`cs` characters; on overflow flush `cur`, and recurse via `recur` on a
split that is itself longer than `cs`. -/
def mergeSplits (cs : Nat) (recur : Str → List Str) (sep : Str) :
    List Str → Str → List Str
  | [], cur => flushCur cur
  | split :: rest, cur =>
    let test := if cur = [] then split else cur ++ sep ++ split
    if test.length ≤ cs then
      mergeSplits cs recur sep rest test
    else if cs < split.length then
      flushCur cur ++ recur split ++ mergeSplits cs recur sep rest []
    else
      flushCur cur ++ mergeSplits cs recur sep rest split

/-- `TextChunker.splitTextRecursive`: with no separators left, or text no
longer than `cs`, return the text as one chunk (through the overlap pass);
otherwise split on the first separator, retrying with the remaining
separators when the separator does not occur, and merge the splits with
`mergeSplits`; every level ends by applying `withOverlap`. -/
def splitTextRecursive (cs ov : Nat) : List Str → Str → List Str
  | [] => fun text => withOverlap ov [text]
  | sep :: rest => fun text =>
    if text.length ≤ cs then withOverlap ov [text]
    else
      let splits := jsSplit sep text
      if splits.length = 1 then splitTextRecursive cs ov rest text
      else withOverlap ov (mergeSplits cs (splitTextRecursive cs ov rest) sep splits [])

/-- The default separator list `['\n\n', '\n', '. ', ' ', '']`. -/
def defaultSeparators : List Str :=
  [['\n', '\n'], ['\n'], ['.', ' '], [' '], []]

/-- `TextChunker.splitText` for a chunker configured with chunk size `cs`,
overlap `ov` and separator list `seps`. -/
def splitText (cs ov : Nat) (seps : List Str) (text : Str) : List Str :=
  splitTextRecursive cs ov seps text

end TextChunker

namespace TextChunker

/-- A gap: a string that is a concatenation of strings drawn from the
separator list `seps` (so nothing but separators is lost there). -/
def GapText (seps : List Str) (g : Str) : Prop :=
  ∃ parts : List Str, (∀ p ∈ parts, p ∈ seps) ∧ g = parts.flatten

/-- `ChunksRebuild seps chunks t` says the text `t` is exactly the chunks in
order, interleaved with gaps made of separators (gaps may also occur before
the first chunk and after the last one). -/
def ChunksRebuild (seps : List Str) : List Str → Str → Prop
  | [], t => GapText seps t
  | c :: rest, t => ∃ g t2, GapText seps g ∧ t = g ++ c ++ t2 ∧ ChunksRebuild seps rest t2

theorem GapText.nil (seps : List Str) : GapText seps [] :=
  ⟨[], by simp, rfl⟩

theorem GapText.ofSep {seps : List Str} {s : Str} (h : s ∈ seps) : GapText seps s :=
  ⟨[s], by simpa using h, by simp⟩

theorem GapText.concat {seps : List Str} {g1 g2 : Str}
    (h1 : GapText seps g1) (h2 : GapText seps g2) : GapText seps (g1 ++ g2) := by
  obtain ⟨p1, hp1, rfl⟩ := h1
  obtain ⟨p2, hp2, rfl⟩ := h2
  exact ⟨p1 ++ p2, by
    intro p hp
    rcases List.mem_append.mp hp with h | h
    · exact hp1 p h
    · exact hp2 p h, by simp⟩

theorem GapText.weaken {seps seps' : List Str} {g : Str}
    (hsub : ∀ s ∈ seps, s ∈ seps') (h : GapText seps g) : GapText seps' g := by
  obtain ⟨p, hp, rfl⟩ := h
  exact ⟨p, fun x hx => hsub x (hp x hx), rfl⟩

theorem ChunksRebuild.mono {seps seps' : List Str}
    (hsub : ∀ s ∈ seps, s ∈ seps') :
    ∀ {chunks : List Str} {t : Str}, ChunksRebuild seps chunks t → ChunksRebuild seps' chunks t
  | [], _, h => GapText.weaken hsub h
  | _ :: _, _, ⟨g, t2, hg, ht, hrest⟩ =>
    ⟨g, t2, hg.weaken hsub, ht, ChunksRebuild.mono hsub hrest⟩

/-- One chunk equal to the whole text rebuilds it. -/
theorem ChunksRebuild.singleChunk (seps : List Str) (c : Str) : ChunksRebuild seps [c] c :=
  ⟨[], [], GapText.nil seps, by simp, GapText.nil seps⟩

/-- A leading gap can be absorbed. -/
theorem ChunksRebuild.gap_prepend {seps : List Str} {g : Str} (hg : GapText seps g) :
    ∀ {chunks : List Str} {t : Str}, ChunksRebuild seps chunks t →
      ChunksRebuild seps chunks (g ++ t)
  | [], _, h => hg.concat h
  | _ :: _, _, ⟨g2, t2, hg2, ht, hrest⟩ =>
    ⟨g ++ g2, t2, hg.concat hg2, by simp [ht], hrest⟩

/-- A trailing gap can be absorbed. -/
theorem ChunksRebuild.gap_append {seps : List Str} {g : Str} (hg : GapText seps g) :
    ∀ {chunks : List Str} {t : Str}, ChunksRebuild seps chunks t →
      ChunksRebuild seps chunks (t ++ g)
  | [], _, h => GapText.concat h hg
  | _ :: _, _, ⟨g2, t2, hg2, ht, hrest⟩ =>
    ⟨g2, t2 ++ g, hg2, by simp [ht], ChunksRebuild.gap_append hg hrest⟩

/-- Two rebuilt pieces of text concatenate (with a gap between) to a rebuild
of the concatenation. -/
theorem ChunksRebuild.append {seps : List Str} {g : Str} (hg : GapText seps g) :
    ∀ {ch1 : List Str} {t1 : Str} {ch2 : List Str} {t2 : Str},
      ChunksRebuild seps ch1 t1 → ChunksRebuild seps ch2 t2 →
      ChunksRebuild seps (ch1 ++ ch2) (t1 ++ g ++ t2)
  | [], t1, ch2, t2, h1, h2 => by
    simpa using ChunksRebuild.gap_prepend (GapText.concat h1 hg) h2
  | c :: r1, _, ch2, t2, ⟨g1, s1, hg1, ht1, hrest⟩, h2 =>
    ⟨g1, s1 ++ g ++ t2, hg1, by simp [ht1], ChunksRebuild.append hg hrest h2⟩

/-- `texts.join(sep)` in JavaScript. -/
def joinWith (sep : Str) : List Str → Str
  | [] => []
  | x :: xs => x ++ (xs.map (fun y => sep ++ y)).flatten

theorem joinWith_single (sep x : Str) : joinWith sep [x] = x := by
  simp [joinWith]

theorem joinWith_cons_cons (sep x y : Str) (ys : List Str) :
    joinWith sep (x :: y :: ys) = x ++ sep ++ joinWith sep (y :: ys) := by
  simp [joinWith]

theorem joinWith_merge_head (sep a b : Str) (l : List Str) :
    joinWith sep ((a ++ sep ++ b) :: l) = joinWith sep (a :: b :: l) := by
  cases l with
  | nil => simp [joinWith]
  | cons y ys => simp [joinWith]

/-- `findSplit` really locates an occurrence of the separator. -/
theorem findSplit_spec (sep : Str) :
    ∀ {s p q : Str}, findSplit sep s = some (p, q) → s = p ++ sep ++ q := by
  intro s
  induction s with
  | nil => intro p q h; simp [findSplit] at h
  | cons c rest ih =>
    intro p q h
    by_cases hpre : sep.isPrefixOf (c :: rest)
    · rw [findSplit, if_pos hpre] at h
      obtain ⟨t, ht⟩ := (List.isPrefixOf_iff_prefix.mp hpre)
      cases h
      simp only [List.nil_append]
      conv_lhs => rw [← ht]
      rw [← ht, List.drop_left]
    · rw [findSplit, if_neg hpre] at h
      cases hfs : findSplit sep rest with
      | none => rw [hfs] at h; simp at h
      | some pq =>
        obtain ⟨p', q'⟩ := pq
        rw [hfs] at h
        cases h
        have := ih hfs
        simp [this]

/-- The tail returned by `findSplit` is shorter than the input when the
separator is non-empty. -/
theorem findSplit_length {sep : Str} (hsep : sep ≠ []) {s p q : Str}
    (h : findSplit sep s = some (p, q)) : q.length < s.length := by
  have hs := findSplit_spec sep h
  have : s.length = p.length + sep.length + q.length := by simp [hs]; omega
  have hpos : 0 < sep.length := List.length_pos.mpr hsep
  omega

theorem splitOnCore_ne_nil (sep : Str) (fuel : Nat) (s : Str) :
    splitOnCore sep fuel s ≠ [] := by
  cases fuel with
  | zero => simp [splitOnCore]
  | succ n =>
    rw [splitOnCore]
    cases findSplit sep s with
    | none => simp
    | some pq => simp

theorem splitOnCore_join {sep : Str} (hsep : sep ≠ []) :
    ∀ (fuel : Nat) (s : Str), s.length < fuel →
      joinWith sep (splitOnCore sep fuel s) = s := by
  intro fuel
  induction fuel with
  | zero => intro s h; omega
  | succ n ih =>
    intro s hlen
    rw [splitOnCore]
    cases hfs : findSplit sep s with
    | none => exact joinWith_single sep s
    | some pq =>
      obtain ⟨p, q⟩ := pq
      have hq : q.length < s.length := findSplit_length hsep hfs
      have hrec := ih q (by omega)
      cases hz : splitOnCore sep n q with
      | nil => exact absurd hz (splitOnCore_ne_nil sep n q)
      | cons z zs =>
        rw [hz] at hrec
        simp only [hz]
        rw [joinWith_cons_cons, hrec]
        exact (findSplit_spec sep hfs).symm

theorem join_map_singleton (s : Str) : (s.map (fun c => [c])).flatten = s := by
  induction s with
  | nil => rfl
  | cons c rest ih => simp [ih]

/-- Re-joining the splits with the separator recovers the text: the model of
`text.split(sep)` is a genuine splitting. -/
theorem jsSplit_join (sep s : Str) : joinWith sep (jsSplit sep s) = s := by
  by_cases hsep : sep = []
  · subst hsep
    rw [jsSplit, if_pos rfl]
    cases s with
    | nil => rfl
    | cons c rest =>
      simp only [List.map_cons, joinWith, List.nil_append]
      rw [List.map_map]
      simpa using join_map_singleton (c :: rest)
  · rw [jsSplit, if_neg hsep]
    exact splitOnCore_join hsep (s.length + 1) s (by omega)

theorem flushCur_nil : flushCur [] = [] := rfl

theorem flushCur_ne {cur : Str} (h : cur ≠ []) : flushCur cur = [cur] := by
  simp [flushCur, h]

/-- Unfolding of the merge loop when the buffer is empty. -/
theorem mergeSplits_cons_nil (cs : Nat) (recur : Str → List Str) (sep : Str)
    (split : Str) (rest' : List Str) :
    mergeSplits cs recur sep (split :: rest') [] =
      if split.length ≤ cs then mergeSplits cs recur sep rest' split
      else if cs < split.length then recur split ++ mergeSplits cs recur sep rest' []
      else mergeSplits cs recur sep rest' split := by
  simp [mergeSplits, flushCur]

/-- Unfolding of the merge loop when the buffer is non-empty. -/
theorem mergeSplits_cons_ne (cs : Nat) (recur : Str → List Str) (sep : Str)
    (split : Str) (rest' : List Str) {cur : Str} (hc : cur ≠ []) :
    mergeSplits cs recur sep (split :: rest') cur =
      if (cur ++ sep ++ split).length ≤ cs then
        mergeSplits cs recur sep rest' (cur ++ sep ++ split)
      else if cs < split.length then
        cur :: (recur split ++ mergeSplits cs recur sep rest' [])
      else cur :: mergeSplits cs recur sep rest' split := by
  simp [mergeSplits, flushCur, hc]

/-- The merge loop loses only separator occurrences: its output chunks,
interleaved with separator gaps, rebuild the text represented by the
pending buffer and the remaining splits. -/
theorem mergeSplits_rebuild (cs : Nat) (recur : Str → List Str) (sep : Str)
    (rest : List Str) (hrec : ∀ s, ChunksRebuild rest (recur s) s) :
    ∀ (splits : List Str) (cur : Str),
      ChunksRebuild (sep :: rest) (mergeSplits cs recur sep splits cur)
        (joinWith sep (if cur = [] then splits else cur :: splits)) := by
  have hsepmem : sep ∈ sep :: rest := List.mem_cons_self sep rest
  have hrecS : ∀ s, ChunksRebuild (sep :: rest) (recur s) s := fun s =>
    (hrec s).mono (fun x hx => List.mem_cons_of_mem sep hx)
  intro splits
  induction splits with
  | nil =>
    intro cur
    by_cases hc : cur = []
    · subst hc
      simp only [mergeSplits, flushCur_nil, if_pos rfl]
      exact GapText.nil _
    · simp only [mergeSplits, flushCur_ne hc, if_neg hc, joinWith_single]
      exact ChunksRebuild.singleChunk _ cur
  | cons split rest' ih =>
    intro cur
    by_cases hc : cur = []
    · subst hc
      rw [mergeSplits_cons_nil, if_pos rfl]
      by_cases h1 : split.length ≤ cs
      · rw [if_pos h1]
        by_cases hs0 : split = []
        · subst hs0
          have ihx := ih []
          rw [if_pos rfl] at ihx
          cases rest' with
          | nil => simpa [joinWith] using ihx
          | cons y ys =>
            rw [joinWith_cons_cons]
            simpa using (ihx.gap_prepend (GapText.ofSep hsepmem) :)
        · have ihx := ih split
          rwa [if_neg hs0] at ihx
      · rw [if_neg h1, if_pos (by omega : cs < split.length)]
        have ihx := ih []
        rw [if_pos rfl] at ihx
        cases rest' with
        | nil =>
          simp only [mergeSplits, flushCur_nil, List.append_nil, joinWith_single]
          exact hrecS split
        | cons y ys =>
          rw [joinWith_cons_cons]
          exact ChunksRebuild.append (GapText.ofSep hsepmem) (hrecS split) ihx
    · rw [mergeSplits_cons_ne cs recur sep split rest' hc, if_neg hc]
      have htest : cur ++ sep ++ split ≠ [] := fun h =>
        hc (List.append_eq_nil.mp (List.append_eq_nil.mp h).1).1
      by_cases h1 : (cur ++ sep ++ split).length ≤ cs
      · rw [if_pos h1]
        have ihx := ih (cur ++ sep ++ split)
        rw [if_neg htest] at ihx
        rwa [joinWith_merge_head] at ihx
      · rw [if_neg h1, joinWith_cons_cons]
        by_cases h2 : cs < split.length
        · rw [if_pos h2]
          refine ⟨[], sep ++ joinWith sep (split :: rest'), GapText.nil _, by simp, ?_⟩
          have ihx := ih []
          rw [if_pos rfl] at ihx
          cases rest' with
          | nil =>
            simp only [mergeSplits, flushCur_nil, List.append_nil, joinWith_single]
            simpa using ((hrecS split).gap_prepend (GapText.ofSep hsepmem) :)
          | cons y ys =>
            rw [joinWith_cons_cons]
            have happ := ChunksRebuild.append (GapText.ofSep hsepmem) (hrecS split) ihx
            simpa [List.append_assoc] using (happ.gap_prepend (GapText.ofSep hsepmem) :)
        · rw [if_neg h2]
          refine ⟨[], sep ++ joinWith sep (split :: rest'), GapText.nil _, by simp, ?_⟩
          by_cases hs0 : split = []
          · subst hs0
            have ihx := ih []
            rw [if_pos rfl] at ihx
            cases rest' with
            | nil =>
              simp only [mergeSplits, flushCur_nil, joinWith, List.map_nil,
                List.flatten_nil, List.append_nil]
              exact GapText.ofSep hsepmem
            | cons y ys =>
              rw [joinWith_cons_cons]
              simp only [List.nil_append]
              simpa [List.append_assoc] using
                ((ihx.gap_prepend (GapText.ofSep hsepmem)).gap_prepend
                  (GapText.ofSep hsepmem) :)
          · have ihx := ih split
            rw [if_neg hs0] at ihx
            exact ihx.gap_prepend (GapText.ofSep hsepmem)

theorem withOverlap_zero (chunks : List Str) : withOverlap 0 chunks = chunks := by
  simp [withOverlap]

/-- With overlap `0`, the recursive splitter loses only separator
occurrences: the chunks interleaved with separator gaps rebuild the text. -/
theorem splitTextRecursive_rebuild (cs : Nat) :
    ∀ (seps : List Str) (text : Str),
      ChunksRebuild seps (splitTextRecursive cs 0 seps text) text := by
  intro seps
  induction seps with
  | nil =>
    intro text
    simp only [splitTextRecursive, withOverlap_zero]
    exact ChunksRebuild.singleChunk _ text
  | cons sep rest ih =>
    intro text
    simp only [splitTextRecursive]
    by_cases hlen : text.length ≤ cs
    · rw [if_pos hlen, withOverlap_zero]
      exact ChunksRebuild.singleChunk _ text
    · rw [if_neg hlen]
      by_cases hone : (jsSplit sep text).length = 1
      · simp only [hone, if_pos rfl]
        exact (ih text).mono (fun x hx => List.mem_cons_of_mem sep hx)
      · simp only [hone, if_neg hone, withOverlap_zero]
        have h := mergeSplits_rebuild cs (splitTextRecursive cs 0 rest) sep rest
          ih (jsSplit sep text) []
        rw [if_pos rfl, jsSplit_join] at h
        exact h

end TextChunker

/-- C2 (counterexample): for the chunker with chunk size 2 and overlap 0
(so no overlap is prepended to any chunk) on the text `"aa bb"`, the
produced chunks are `["aa", "bb"]` and their concatenation is `"aabb"`,
not the original text: the separator `" "` at the chunk boundary is lost,
so re-concatenating the chunks does not reconstruct the input exactly. -/
theorem splitText_exact_reconstruction_fails :
    TextChunker.splitText 2 0 TextChunker.defaultSeparators "aa bb".toList
        = ["aa".toList, "bb".toList]
      ∧ (TextChunker.splitText 2 0 TextChunker.defaultSeparators "aa bb".toList).flatten
        ≠ "aa bb".toList := by
  constructor
  · decide
  · decide

/-- C2 (amended): for every chunk size, separator list and text, with
chunk overlap 0 (so the chunks carry no prepended overlap), the original
text is exactly the produced chunks in order interleaved with gaps, where
every gap — including one before the first chunk and one after the last —
is a concatenation of separator strings.  Reconstruction is exact only up
to these dropped separator occurrences, not character-for-character. -/
theorem splitText_reconstructs_up_to_separator_gaps
    (cs : Nat) (seps : List Str) (text : Str) :
    TextChunker.ChunksRebuild seps (TextChunker.splitText cs 0 seps text) text :=
  TextChunker.splitTextRecursive_rebuild cs seps text

namespace TextChunker

theorem overlapPass_length (ov : Nat) :
    ∀ (l : List Str) (prev : Str), (overlapPass ov prev l).length = l.length := by
  intro l
  induction l with
  | nil => intro prev; rfl
  | cons c rest ih => intro prev; simp [overlapPass, ih c]

theorem overlapPass_get? (ov : Nat) :
    ∀ (l : List Str) (prev : Str) (i : Nat),
      (overlapPass ov prev l)[i]? =
        (l[i]?).map (fun c => takeRight ov ((prev :: l).getD i []) ++ c) := by
  intro l
  induction l with
  | nil => intro prev i; simp [overlapPass]
  | cons c rest ih =>
    intro prev i
    cases i with
    | zero => simp [overlapPass]
    | succ j =>
      simp only [overlapPass, List.getElem?_cons_succ]
      rw [ih c j]
      rfl

end TextChunker

/-- C3 (counterexample): with chunk size 3, overlap 1 and the default
separators on `"ab cdefg"`, the pre-overlap chunk list is
`["ab", "cde", "fg"]`; prefixing each chunk except the first with the
trailing 1 character of the preceding *original* chunk would give
`["ab", "bcde", "efg"]`, but `splitText` returns `["ab", "bcde", "eefg"]`:
the chunk `"fg"`, produced by recursive sub-splitting, received overlap
twice (once inside the recursion from `"cde"`, then again at the outer
level), so the overlap does cascade. -/
theorem splitText_overlap_cascades :
    TextChunker.splitText 3 0 TextChunker.defaultSeparators "ab cdefg".toList
        = ["ab".toList, "cde".toList, "fg".toList]
      ∧ TextChunker.withOverlap 1
          (TextChunker.splitText 3 0 TextChunker.defaultSeparators "ab cdefg".toList)
        = ["ab".toList, "bcde".toList, "efg".toList]
      ∧ TextChunker.splitText 3 1 TextChunker.defaultSeparators "ab cdefg".toList
        = ["ab".toList, "bcde".toList, "eefg".toList]
      ∧ TextChunker.splitText 3 1 TextChunker.defaultSeparators "ab cdefg".toList
        ≠ TextChunker.withOverlap 1
            (TextChunker.splitText 3 0 TextChunker.defaultSeparators "ab cdefg".toList) := by
  refine ⟨by decide, by decide, by decide, by decide⟩

/-- C3 (amended): a single `createChunksWithOverlap` pass with positive
overlap `ov + 1` keeps the first chunk unchanged and prefixes each later
chunk with the trailing `ov + 1` characters of the preceding chunk *of its
input list* (within one pass the overlap is taken from the not-yet-
overlapped neighbour and applied exactly once); however `splitText`
applies this pass at every recursion level, so a chunk produced by
recursive sub-splitting can receive overlap more than once (see the
counterexample). -/
theorem createChunksWithOverlap_single_pass (ov : Nat) (chunks : List Str)
    (i : Nat) :
    (TextChunker.withOverlap (ov + 1) chunks).length = chunks.length
      ∧ (TextChunker.withOverlap (ov + 1) chunks)[0]? = chunks[0]?
      ∧ (TextChunker.withOverlap (ov + 1) chunks)[i + 1]? =
          (chunks[i + 1]?).map
            (fun c => TextChunker.takeRight (ov + 1) (chunks.getD i []) ++ c) := by
  by_cases hle : chunks.length ≤ 1
  · rw [TextChunker.withOverlap.eq_def, if_pos (Or.inr hle)]
    refine ⟨rfl, rfl, ?_⟩
    rw [List.getElem?_eq_none (by omega : chunks.length ≤ i + 1)]
    rfl
  · have hif : ¬(ov + 1 = 0 ∨ chunks.length ≤ 1) := by
      intro h
      rcases h with h | h
      · omega
      · exact hle h
    cases chunks with
    | nil => simp at hle
    | cons c rest =>
      rw [TextChunker.withOverlap.eq_def, if_neg hif]
      refine ⟨by simp [TextChunker.overlapPass_length], by simp, ?_⟩
      simp only [List.getElem?_cons_succ]
      rw [TextChunker.overlapPass_get? (ov + 1) rest c i]

namespace MockEmbeddings

/-- JavaScript 32-bit signed integer coercion (`ToInt32`, as produced by
`hash & hash` and the shift operator). -/
def toInt32 (n : Int) : Int := (n + 2 ^ 31) % 2 ^ 32 - 2 ^ 31

/-- One step of `simpleHash`:
`hash = (hash << 5) - hash + char; hash = hash & hash`. -/
def hashStep (h : Int) (c : Char) : Int :=
  toInt32 (toInt32 (h * 32) - h + c.toNat)

/-- `MockEmbeddingsService.simpleHash`: polynomial rolling hash over the
characters with 32-bit wraparound, then `Math.abs`. -/
def simpleHash (s : Str) : Nat := (s.foldl hashStep 0).natAbs

/-- The linear congruential generator step
`seed = (seed * 1103515245 + 12345) & 0x7fffffff`. -/
def lcg (seed : Nat) : Nat := (seed * 1103515245 + 12345) % 2 ^ 31

/-- The raw (pre-normalization) entries: for each dimension, advance the
LCG and emit `(seed / 0x7fffffff) * 2 - 1`. -/
def rawVals : Nat → Nat → List ℚ
  | 0, _ => []
  | n + 1, seed =>
    ((lcg seed : ℚ) / (2 ^ 31 - 1) * 2 - 1) :: rawVals n (lcg seed)

/-- The deterministic raw vector for a text: LCG seeded by `simpleHash`. -/
def rawVector (dims : Nat) (text : Str) : List ℚ := rawVals dims (simpleHash text)

/-- `MockEmbeddingsService.normalizeVector`: divide by the L2 magnitude,
or return the all-zero vector when the magnitude is zero. -/
noncomputable def normalizeVector (v : List ℝ) : List ℝ :=
  if Real.sqrt ((v.map (fun x => x * x)).sum) = 0 then v.map (fun _ => 0)
  else v.map (fun x => x / Real.sqrt ((v.map (fun x => x * x)).sum))

/-- `MockEmbeddingsService.embedText` / `generateDeterministicVector`:
hash, LCG expansion to `dims` pseudo-random values in `[-1, 1]`, then
L2 normalization. -/
noncomputable def embedText (dims : Nat) (text : Str) : List ℝ :=
  normalizeVector ((rawVector dims text).map (fun (q : ℚ) => (q : ℝ)))

theorem rawVals_length : ∀ (n seed : Nat), (rawVals n seed).length = n
  | 0, _ => rfl
  | n + 1, seed => by simp [rawVals, rawVals_length n]

theorem rawVals_ne_zero : ∀ (n seed : Nat), ∀ x ∈ rawVals n seed, x ≠ 0 := by
  intro n
  induction n with
  | zero => intro seed x hx; simp [rawVals] at hx
  | succ m ih =>
    intro seed x hx
    rw [rawVals] at hx
    rcases List.mem_cons.mp hx with hx | hx
    · subst hx
      intro h
      have h2 : ((lcg seed : ℚ)) * 2 = 2 ^ 31 - 1 := by
        have hne : ((2 : ℚ) ^ 31 - 1) ≠ 0 := by norm_num
        field_simp at h
        linarith
      have h3 : ((lcg seed * 2 : ℕ) : ℚ) = ((2147483647 : ℕ) : ℚ) := by
        push_cast
        push_cast at h2
        linarith
      have h4 : lcg seed * 2 = 2147483647 := Nat.cast_injective h3
      omega
    · exact ih (lcg seed) x hx

theorem sumSq_nonneg (v : List ℝ) : 0 ≤ (v.map (fun x => x * x)).sum := by
  induction v with
  | nil => simp
  | cons x rest ih =>
    simp only [List.map_cons, List.sum_cons]
    have := mul_self_nonneg x
    linarith

theorem sumSq_div (v : List ℝ) (m : ℝ) :
    ((v.map (fun x => x / m)).map (fun x => x * x)).sum
      = (v.map (fun x => x * x)).sum / (m * m) := by
  induction v with
  | nil => simp
  | cons x rest ih =>
    simp only [List.map_cons, List.sum_cons, ih]
    rw [add_div, div_mul_div_comm]

end MockEmbeddings

namespace MockEmbeddings

theorem sumSq_pos_of_mem {v : List ℝ} {x : ℝ} (hx : x ∈ v) (hxne : x ≠ 0) :
    0 < (v.map (fun y => y * y)).sum := by
  induction v with
  | nil => simp at hx
  | cons a rest ih =>
    simp only [List.map_cons, List.sum_cons]
    rcases List.mem_cons.mp hx with h | h
    · subst h
      have h1 : 0 < x * x := mul_self_pos.mpr hxne
      have h2 := sumSq_nonneg rest
      linarith
    · have h1 := ih h
      have h2 := mul_self_nonneg a
      linarith

theorem rawSumSq_pos (d : Nat) (text : Str) :
    0 < ((((rawVector (d + 1) text).map (fun (q : ℚ) => (q : ℝ))).map (fun x => x * x)).sum) := by
  rw [rawVector, rawVals]
  apply sumSq_pos_of_mem (x := ((lcg (simpleHash text) : ℚ) / (2 ^ 31 - 1) * 2 - 1 : ℚ))
  · simp
  · have h := rawVals_ne_zero (d + 1) (simpleHash text)
      ((lcg (simpleHash text) : ℚ) / (2 ^ 31 - 1) * 2 - 1)
      (by rw [rawVals]; exact List.mem_cons_self _ _)
    exact_mod_cast h

end MockEmbeddings

/-- C6: for every positive dimension count `d + 1` and every text
(including the empty one), the mock `embedText` returns a vector with
exactly `d + 1` entries; its sum of squared entries is exactly 1, so its
L2 norm differs from 1 by at most `1e-9`; and the generator — a 32-bit
polynomial rolling hash seeding a linear congruential generator followed
by L2 normalization — is a pure function of the text, so two calls with
the same text return the identical vector. -/
theorem mock_embedText_spec (d : Nat) (text : Str) :
    (MockEmbeddings.embedText (d + 1) text).length = d + 1
      ∧ ((MockEmbeddings.embedText (d + 1) text).map (fun x => x * x)).sum = 1
      ∧ |Real.sqrt (((MockEmbeddings.embedText (d + 1) text).map (fun x => x * x)).sum) - 1|
          ≤ 1 / 1000000000
      ∧ MockEmbeddings.embedText (d + 1) text = MockEmbeddings.embedText (d + 1) text := by
  have hS := MockEmbeddings.rawSumSq_pos d text
  set w := (MockEmbeddings.rawVector (d + 1) text).map (fun (q : ℚ) => (q : ℝ)) with hw
  have hm : Real.sqrt ((w.map (fun x => x * x)).sum) ≠ 0 :=
    ne_of_gt (Real.sqrt_pos.mpr hS)
  have hembed : MockEmbeddings.embedText (d + 1) text
      = w.map (fun x => x / Real.sqrt ((w.map (fun y => y * y)).sum)) := by
    rw [MockEmbeddings.embedText, MockEmbeddings.normalizeVector, if_neg hm]
  have hlen : (MockEmbeddings.embedText (d + 1) text).length = d + 1 := by
    rw [hembed, List.length_map, hw, List.length_map, MockEmbeddings.rawVector,
      MockEmbeddings.rawVals_length]
  have hsum : ((MockEmbeddings.embedText (d + 1) text).map (fun x => x * x)).sum = 1 := by
    rw [hembed, MockEmbeddings.sumSq_div]
    rw [Real.mul_self_sqrt (le_of_lt hS)]
    exact div_self (ne_of_gt hS)
  refine ⟨hlen, hsum, ?_, rfl⟩
  rw [hsum, Real.sqrt_one]
  norm_num

namespace MockEmbeddings

/-- `a.reduce((sum, val, i) => sum + val * (b[i] || 0), 0)` for two
equal-length vectors. -/
def dotProduct (a b : List ℝ) : ℝ := (List.zipWith (fun x y => x * y) a b).sum

/-- `Math.sqrt(v.reduce((sum, val) => sum + val * val, 0))`. -/
noncomputable def magnitude (v : List ℝ) : ℝ :=
  Real.sqrt ((v.map (fun x => x * x)).sum)

/-- `MockEmbeddingsService.cosineSimilarity`: throws on a length mismatch,
returns 0 when either magnitude is 0, otherwise the normalized dot
product. -/
noncomputable def cosineSimilarity (a b : List ℝ) : Except String ℝ :=
  if a.length ≠ b.length then Except.error "Vectors must have the same dimensions"
  else if magnitude a = 0 ∨ magnitude b = 0 then Except.ok 0
  else Except.ok (dotProduct a b / (magnitude a * magnitude b))

theorem dotProduct_self (v : List ℝ) :
    dotProduct v v = (v.map (fun x => x * x)).sum := by
  induction v with
  | nil => rfl
  | cons x rest ih =>
    simp only [dotProduct, List.zipWith_cons_cons, List.sum_cons, List.map_cons] at ih ⊢
    rw [ih]

theorem dotProduct_self_neg (v : List ℝ) :
    dotProduct v (v.map (fun x => -x)) = -((v.map (fun x => x * x)).sum) := by
  induction v with
  | nil => simp [dotProduct]
  | cons x rest ih =>
    simp only [dotProduct, List.map_cons, List.zipWith_cons_cons, List.sum_cons] at ih ⊢
    rw [ih]
    ring

theorem magnitude_neg (v : List ℝ) :
    magnitude (v.map (fun x => -x)) = magnitude v := by
  rw [magnitude, magnitude, List.map_map]
  have : ((fun x => x * x) ∘ fun x : ℝ => -x) = fun x : ℝ => x * x := by
    funext x
    simp
  rw [this]

theorem magnitude_pos {v : List ℝ} {x : ℝ} (hx : x ∈ v) (hxne : x ≠ 0) :
    0 < magnitude v :=
  Real.sqrt_pos.mpr (sumSq_pos_of_mem hx hxne)

theorem magnitude_replicate_zero (n : Nat) :
    magnitude (List.replicate n (0 : ℝ)) = 0 := by
  rw [magnitude]
  have : (List.replicate n (0 : ℝ)).map (fun x => x * x) = List.replicate n 0 := by
    simp
  rw [this]
  simp

end MockEmbeddings

/-- C7: the cosine similarity utility fails with an error on vectors of
unequal length; on equal-length vectors it returns
`dot(a,b) / (|a| * |b|)`, with 0 whenever either magnitude is 0; hence for
the given nonzero vector `v` it returns 1 on `(v, v)`, -1 on `(v, -v)`,
and 0 whenever the first argument is a zero vector of matching length. -/
theorem cosineSimilarity_spec (v : List ℝ) (hv : ∃ x ∈ v, x ≠ 0) :
    (∀ a b : List ℝ, a.length ≠ b.length →
        MockEmbeddings.cosineSimilarity a b
          = Except.error "Vectors must have the same dimensions")
      ∧ (∀ a b : List ℝ, a.length = b.length →
          MockEmbeddings.cosineSimilarity a b
            = Except.ok
                (if MockEmbeddings.magnitude a = 0 ∨ MockEmbeddings.magnitude b = 0 then 0
                 else MockEmbeddings.dotProduct a b
                    / (MockEmbeddings.magnitude a * MockEmbeddings.magnitude b)))
      ∧ MockEmbeddings.cosineSimilarity v v = Except.ok 1
      ∧ MockEmbeddings.cosineSimilarity v (v.map (fun x => -x)) = Except.ok (-1)
      ∧ (∀ (n : Nat) (b : List ℝ), b.length = n →
          MockEmbeddings.cosineSimilarity (List.replicate n 0) b = Except.ok 0) := by
  obtain ⟨x, hxmem, hxne⟩ := hv
  have hmag : 0 < MockEmbeddings.magnitude v := MockEmbeddings.magnitude_pos hxmem hxne
  have hS : 0 < (v.map (fun y => y * y)).sum := MockEmbeddings.sumSq_pos_of_mem hxmem hxne
  refine ⟨?_, ?_, ?_, ?_, ?_⟩
  · intro a b hab
    rw [MockEmbeddings.cosineSimilarity, if_pos hab]
  · intro a b hab
    rw [MockEmbeddings.cosineSimilarity, if_neg (by omega)]
    by_cases hz : MockEmbeddings.magnitude a = 0 ∨ MockEmbeddings.magnitude b = 0
    · rw [if_pos hz, if_pos hz]
    · rw [if_neg hz, if_neg hz]
  · rw [MockEmbeddings.cosineSimilarity, if_neg (by omega)]
    rw [if_neg (by push_neg; constructor <;> exact ne_of_gt hmag)]
    rw [MockEmbeddings.dotProduct_self]
    rw [MockEmbeddings.magnitude, Real.mul_self_sqrt (MockEmbeddings.sumSq_nonneg v)]
    rw [div_self (ne_of_gt hS)]
  · have hlen : v.length = (v.map (fun x => -x)).length := by simp
    rw [MockEmbeddings.cosineSimilarity, if_neg (by simp)]
    rw [MockEmbeddings.magnitude_neg]
    rw [if_neg (by push_neg; constructor <;> exact ne_of_gt hmag)]
    rw [MockEmbeddings.dotProduct_self_neg]
    rw [MockEmbeddings.magnitude, Real.mul_self_sqrt (MockEmbeddings.sumSq_nonneg v)]
    rw [neg_div, div_self (ne_of_gt hS)]
  · intro n b hb
    rw [MockEmbeddings.cosineSimilarity,
      if_neg (by simp [hb]), if_pos (Or.inl (MockEmbeddings.magnitude_replicate_zero n))]

/-- C7 (witness): the specification applied to the concrete nonzero vector
`[1]`. -/
theorem cosineSimilarity_spec_witness :
    MockEmbeddings.cosineSimilarity [(1 : ℝ)] [(1 : ℝ)] = Except.ok 1 :=
  (cosineSimilarity_spec [(1 : ℝ)] ⟨1, by norm_num⟩).2.2.1

namespace Store

/-- A row of the `prompts` table (fields used by the core). -/
structure Prompt where
  id : String
  domainId : String
  name : Option String
  description : Option String
  prompt : Option Str
deriving DecidableEq

/-- A row of the `embeddings` table. -/
structure Emb where
  id : String
  domainId : String
  promptId : String
  chunkId : String
  text : Str
  vector : List ℚ
deriving DecidableEq

end Store

namespace VectorSearch

open Store

/-- A row of `VectorSearchService.similaritySearch`'s SQL result. -/
structure SearchResult where
  embeddingId : String
  promptId : String
  chunkId : String
  text : Str
  promptName : Option String
  promptDescription : Option String
  similarityScore : ℚ
deriving DecidableEq

/-- The `WHERE` clause: embeddings of the domain, optionally restricted to
one prompt. -/
def inScope (embs : List Emb) (domainId : String) :
    Option String → List Emb
  | some pid => embs.filter (fun e => e.domainId == domainId && e.promptId == pid)
  | none => embs.filter (fun e => e.domainId == domainId)

/-- The `innerJoin(prompts, eq(embeddings.promptId, prompts.id))`. -/
def joinPrompts (embs : List Emb) (prompts : List Prompt) : List (Emb × Prompt) :=
  embs.filterMap (fun e => (prompts.find? (fun p => p.id == e.promptId)).map (fun p => (e, p)))

/-- `ORDER BY embeddings.vector <=> queryVector` (ascending cosine
distance); `dist` abstracts the pgvector `<=>` distance of a stored vector
to the query embedding. -/
def rankByDistance (dist : List ℚ → ℚ) (rows : List (Emb × Prompt)) : List (Emb × Prompt) :=
  rows.insertionSort (fun a b => dist a.1.vector ≤ dist b.1.vector)

/-- The `SELECT` shape with `similarityScore = 1 - (vector <=> queryVector)`. -/
def toResult (dist : List ℚ → ℚ) (r : Emb × Prompt) : SearchResult :=
  { embeddingId := r.1.id, promptId := r.1.promptId, chunkId := r.1.chunkId,
    text := r.1.text, promptName := r.2.name, promptDescription := r.2.description,
    similarityScore := 1 - dist r.1.vector }

/-- `VectorSearchService.similaritySearch`: scope, order by distance,
`LIMIT topK`, then `.filter((r) => r.similarityScore >= minSimilarity)`. -/
def similaritySearch (embs : List Emb) (prompts : List Prompt) (dist : List ℚ → ℚ)
    (domainId : String) (topK : Nat) (promptId? : Option String) (minSimilarity : ℚ) :
    List SearchResult :=
  (((rankByDistance dist (joinPrompts (inScope embs domainId promptId?) prompts)).take
      topK).map (toResult dist)).filter
    (fun r => minSimilarity ≤ r.similarityScore)

end VectorSearch

/-- C1: for all stores, tenants, queries (abstracted by the distance of
each stored vector to the query embedding), `topK` and `minSimilarity`,
`similaritySearch` ranks the in-scope chunks by ascending cosine distance
(descending similarity), cuts to the first `topK`, and only then filters
by `minSimilarity`; consequently the result has at most `topK` elements,
every returned score is at least `minSimilarity`, scores are pairwise
non-increasing, and the result is literally the post-cut filter of the
ranked list (the filter is applied strictly after the `topK` cut). -/
theorem similaritySearch_spec (embs : List Store.Emb) (prompts : List Store.Prompt)
    (dist : List ℚ → ℚ) (domainId : String) (topK : Nat) (promptId? : Option String)
    (minSimilarity : ℚ) :
    (VectorSearch.similaritySearch embs prompts dist domainId topK promptId?
        minSimilarity).length ≤ topK
      ∧ (∀ r ∈ VectorSearch.similaritySearch embs prompts dist domainId topK promptId?
            minSimilarity, minSimilarity ≤ r.similarityScore)
      ∧ (VectorSearch.similaritySearch embs prompts dist domainId topK promptId?
          minSimilarity).Pairwise
            (fun a b => b.similarityScore ≤ a.similarityScore)
      ∧ VectorSearch.similaritySearch embs prompts dist domainId topK promptId? minSimilarity
          = (((VectorSearch.rankByDistance dist
                (VectorSearch.joinPrompts
                  (VectorSearch.inScope embs domainId promptId?) prompts)).take topK).map
              (VectorSearch.toResult dist)).filter
            (fun r => minSimilarity ≤ r.similarityScore) := by
  refine ⟨?_, ?_, ?_, rfl⟩
  · calc (VectorSearch.similaritySearch embs prompts dist domainId topK promptId?
        minSimilarity).length
        ≤ (((VectorSearch.rankByDistance dist
            (VectorSearch.joinPrompts (VectorSearch.inScope embs domainId promptId?)
              prompts)).take topK).map (VectorSearch.toResult dist)).length :=
          List.length_filter_le _ _
      _ ≤ topK := by
          rw [List.length_map]
          exact List.length_take_le _ _
  · intro r hr
    have := List.of_mem_filter hr
    simpa using this
  · apply List.Pairwise.filter
    rw [List.pairwise_map]
    have hsorted : (VectorSearch.rankByDistance dist
        (VectorSearch.joinPrompts (VectorSearch.inScope embs domainId promptId?)
          prompts)).Pairwise (fun a b => dist a.1.vector ≤ dist b.1.vector) := by
      haveI : IsTotal (Store.Emb × Store.Prompt)
          (fun a b => dist a.1.vector ≤ dist b.1.vector) := ⟨fun a b => le_total _ _⟩
      haveI : IsTrans (Store.Emb × Store.Prompt)
          (fun a b => dist a.1.vector ≤ dist b.1.vector) :=
        ⟨fun _ _ _ hab hbc => le_trans hab hbc⟩
      exact List.sorted_insertionSort _ _
    have htake := hsorted.sublist (List.take_sublist topK _)
    exact htake.imp (fun h => by simp [VectorSearch.toResult]; linarith)

namespace VectorSearch

open Store

/-- An entry of the `RelatedPrompt` aggregation. -/
structure RelatedPrompt where
  promptId : String
  promptName : Option String
  promptDescription : Option String
  maxSimilarity : ℚ
  bestChunk : Str
  chunkCount : Nat
deriving DecidableEq

/-- `result.text.length > 200 ? result.text.substring(0, 200) + '...' :
result.text`. -/
def truncateChunk (t : Str) : Str :=
  if 200 < t.length then t.take 200 ++ ['.', '.', '.'] else t

/-- `promptMap.get(id)` on the insertion-ordered map. -/
def findEntry (m : List RelatedPrompt) (pid : String) : Option RelatedPrompt :=
  m.find? (fun e => e.promptId == pid)

/-- `promptMap.set(id, v)` for a key already present: the entry is replaced
in place, keeping its insertion position. -/
def updateEntry (m : List RelatedPrompt) (pid : String)
    (f : RelatedPrompt → RelatedPrompt) : List RelatedPrompt :=
  m.map (fun e => if e.promptId = pid then f e else e)

/-- The loop body of `findRelatedPrompts`: skip a chunk below
`minSimilarity`; otherwise create the entry (count 1), replace it when the
new score is strictly higher (carrying the running count), or only bump the
count. -/
def relatedStep (dist : List ℚ → ℚ) (minSim : ℚ) (m : List RelatedPrompt)
    (row : Emb × Prompt) : List RelatedPrompt :=
  let score := 1 - dist row.1.vector
  if score < minSim then m
  else
    match findEntry m row.1.promptId with
    | none =>
        m ++ [{ promptId := row.1.promptId, promptName := row.2.name,
                promptDescription := row.2.description, maxSimilarity := score,
                bestChunk := truncateChunk row.1.text, chunkCount := 1 }]
    | some e =>
        if e.maxSimilarity < score then
          updateEntry m row.1.promptId (fun old =>
            { promptId := row.1.promptId, promptName := row.2.name,
              promptDescription := row.2.description, maxSimilarity := score,
              bestChunk := truncateChunk row.1.text, chunkCount := old.chunkCount + 1 })
        else
          updateEntry m row.1.promptId (fun old =>
            { old with chunkCount := old.chunkCount + 1 })

/-- `VectorSearchService.findRelatedPrompts`: scan all scored chunks of the
domain (ordered by distance, with no limit), aggregate per prompt, then
sort by best score descending and take the first `topK`. -/
def findRelatedPrompts (embs : List Emb) (prompts : List Prompt) (dist : List ℚ → ℚ)
    (domainId : String) (topK : Nat) (minSim : ℚ) : List RelatedPrompt :=
  let results := rankByDistance dist (joinPrompts (inScope embs domainId none) prompts)
  let m := results.foldl (relatedStep dist minSim) []
  ((m.insertionSort (fun a b => b.maxSimilarity ≤ a.maxSimilarity)).take topK)

/-- Whether a scanned row passes the `minSimilarity` threshold and belongs
to the prompt `pid`. -/
def passesFor (dist : List ℚ → ℚ) (minSim : ℚ) (pid : String) (row : Emb × Prompt) : Bool :=
  decide (minSim ≤ 1 - dist row.1.vector) && row.1.promptId == pid

/-- The aggregation invariant: after scanning `L`, the map has
no-duplicate keys; every key has a passing chunk; and each entry's
`chunkCount` is the exact number of passing chunks of its prompt, its
`maxSimilarity` is achieved by a passing chunk of its prompt whose
truncated text is `bestChunk`, and bounds the score of every passing chunk
of its prompt. -/
def RelatedInv (dist : List ℚ → ℚ) (minSim : ℚ) (L : List (Emb × Prompt))
    (m : List RelatedPrompt) : Prop :=
  (m.map (fun e => e.promptId)).Nodup
    ∧ (∀ row ∈ L, minSim ≤ 1 - dist row.1.vector →
        ∃ e ∈ m, e.promptId = row.1.promptId)
    ∧ ∀ e ∈ m,
        e.chunkCount = L.countP (passesFor dist minSim e.promptId)
        ∧ (∃ row ∈ L, passesFor dist minSim e.promptId row
            ∧ 1 - dist row.1.vector = e.maxSimilarity
            ∧ e.bestChunk = truncateChunk row.1.text)
        ∧ (∀ row ∈ L, passesFor dist minSim e.promptId row →
            1 - dist row.1.vector ≤ e.maxSimilarity)

end VectorSearch

namespace VectorSearch

open Store

theorem updateEntry_keys (m : List RelatedPrompt) (pid : String)
    (f : RelatedPrompt → RelatedPrompt)
    (hf : ∀ e, e.promptId = pid → (f e).promptId = e.promptId) :
    (updateEntry m pid f).map (fun e => e.promptId) = m.map (fun e => e.promptId) := by
  rw [updateEntry, List.map_map]
  apply List.map_congr_left
  intro e _
  by_cases h : e.promptId = pid
  · simp [h, hf e h]
  · simp [h]

theorem mem_updateEntry {m : List RelatedPrompt} {pid : String}
    {f : RelatedPrompt → RelatedPrompt} {x : RelatedPrompt}
    (hx : x ∈ updateEntry m pid f) :
    ∃ e ∈ m, x = if e.promptId = pid then f e else e := by
  obtain ⟨e, he, hxe⟩ := List.mem_map.mp hx
  exact ⟨e, he, hxe.symm⟩

/-- Scanning one more row preserves the aggregation invariant. -/
theorem relatedInv_step (dist : List ℚ → ℚ) (minSim : ℚ) (L : List (Emb × Prompt))
    (m : List RelatedPrompt) (row : Emb × Prompt)
    (h : RelatedInv dist minSim L m) :
    RelatedInv dist minSim (L ++ [row]) (relatedStep dist minSim m row) := by
  obtain ⟨hnd, hcomp, hent⟩ := h
  rw [relatedStep]
  by_cases hpass : 1 - dist row.1.vector < minSim
  · rw [if_pos hpass]
    refine ⟨hnd, ?_, ?_⟩
    · intro r hr hrp
      rcases List.mem_append.mp hr with hr | hr
      · exact hcomp r hr hrp
      · simp only [List.mem_singleton] at hr
        subst hr
        linarith
    · intro e he
      obtain ⟨hcnt, hex, hub⟩ := hent e he
      have hrowfails : passesFor dist minSim e.promptId row = false := by
        simp only [passesFor, Bool.and_eq_false_iff]
        left
        simpa using not_le.mpr hpass
      refine ⟨?_, ?_, ?_⟩
      · rw [List.countP_append, hcnt]
        simp [List.countP_cons, hrowfails]
      · obtain ⟨r, hrL, hp⟩ := hex
        exact ⟨r, List.mem_append_left _ hrL, hp⟩
      · intro r hr hp
        rcases List.mem_append.mp hr with hr | hr
        · exact hub r hr hp
        · simp only [List.mem_singleton] at hr
          subst hr
          rw [hrowfails] at hp
          exact absurd hp (by simp)
  · rw [if_neg hpass]
    have hscore : minSim ≤ 1 - dist row.1.vector := le_of_not_lt hpass
    have hrowpasses : passesFor dist minSim row.1.promptId row = true := by
      simp [passesFor, hscore]
    cases hfe : findEntry m row.1.promptId with
    | none =>
      dsimp only
      have hnokey : ∀ e ∈ m, ¬ e.promptId = row.1.promptId := by
        intro e he heq
        have hfind := List.find?_eq_none.mp (by rwa [findEntry] at hfe) e he
        simp [heq] at hfind
      have hnomem : row.1.promptId ∉ m.map (fun e => e.promptId) := by
        intro hmem
        obtain ⟨e, he, heq⟩ := List.mem_map.mp hmem
        exact hnokey e he heq
      have hnopass : ∀ r ∈ L, passesFor dist minSim row.1.promptId r = false := by
        intro r hr
        by_contra hcon
        have hp : passesFor dist minSim row.1.promptId r = true := by
          revert hcon
          cases passesFor dist minSim row.1.promptId r <;> simp
        simp only [passesFor, Bool.and_eq_true, decide_eq_true_eq, beq_iff_eq] at hp
        obtain ⟨e, he, hek⟩ := hcomp r hr hp.1
        exact hnokey e he (by rw [hek, hp.2])
      refine ⟨?_, ?_, ?_⟩
      · rw [List.map_append]
        apply List.Nodup.append hnd (by simp)
        intro x hx hx2
        simp only [List.map_cons, List.map_nil, List.mem_singleton] at hx2
        subst hx2
        exact hnomem hx
      · intro r hr hrp
        rcases List.mem_append.mp hr with hr | hr
        · obtain ⟨e, he, hk⟩ := hcomp r hr hrp
          exact ⟨e, List.mem_append_left _ he, hk⟩
        · simp only [List.mem_singleton] at hr
          subst hr
          exact ⟨_, List.mem_append_right _ (List.mem_singleton_self _), rfl⟩
      · intro e he
        rcases List.mem_append.mp he with he | he
        · obtain ⟨hcnt, hex, hub⟩ := hent e he
          have hrowfails : passesFor dist minSim e.promptId row = false := by
            simp only [passesFor, Bool.and_eq_false_iff]
            right
            simpa using fun hk => hnokey e he hk.symm
          refine ⟨?_, ?_, ?_⟩
          · rw [List.countP_append, hcnt]
            simp [List.countP_cons, hrowfails]
          · obtain ⟨r, hrL, hp⟩ := hex
            exact ⟨r, List.mem_append_left _ hrL, hp⟩
          · intro r hr hp
            rcases List.mem_append.mp hr with hr | hr
            · exact hub r hr hp
            · simp only [List.mem_singleton] at hr
              subst hr
              rw [hrowfails] at hp
              exact absurd hp (by simp)
        · simp only [List.mem_singleton] at he
          subst he
          refine ⟨?_, ?_, ?_⟩
          · simp only []
            rw [List.countP_append]
            have hz : L.countP (passesFor dist minSim row.1.promptId) = 0 := by
              apply List.countP_eq_zero.mpr
              intro r hr
              simp [hnopass r hr]
            rw [hz]
            simp [List.countP_cons, hrowpasses]
          · exact ⟨row, List.mem_append_right _ (List.mem_singleton_self _),
              hrowpasses, rfl, rfl⟩
          · intro r hr hp
            rcases List.mem_append.mp hr with hr | hr
            · rw [hnopass r hr] at hp
              exact absurd hp (by simp)
            · simp only [List.mem_singleton] at hr
              subst hr
              simp
    | some e0 =>
      dsimp only
      have he0mem : e0 ∈ m := List.mem_of_find?_eq_some (by rwa [findEntry] at hfe)
      have he0key : e0.promptId = row.1.promptId := by
        have := List.find?_some (by rwa [findEntry] at hfe)
        simpa using this
      obtain ⟨hcnt0, hex0, hub0⟩ := hent e0 he0mem
      have huniq : ∀ e ∈ m, e.promptId = row.1.promptId → e = e0 := by
        intro e he hk
        exact List.inj_on_of_nodup_map hnd he he0mem (by rw [hk, he0key])
      by_cases hlt : e0.maxSimilarity < 1 - dist row.1.vector
      · rw [if_pos hlt]
        set f := fun old : RelatedPrompt =>
          ({ promptId := row.1.promptId, promptName := row.2.name,
             promptDescription := row.2.description,
             maxSimilarity := 1 - dist row.1.vector,
             bestChunk := truncateChunk row.1.text,
             chunkCount := old.chunkCount + 1 } : RelatedPrompt) with hfdef
        have hfkey : ∀ e : RelatedPrompt, e.promptId = row.1.promptId →
            (f e).promptId = e.promptId := by
          intro e hk
          simp [hfdef, hk]
        have hkeys := updateEntry_keys m row.1.promptId f hfkey
        refine ⟨by rw [hkeys]; exact hnd, ?_, ?_⟩
        · intro r hr hrp
          rcases List.mem_append.mp hr with hr | hr
          · obtain ⟨e, he, hk⟩ := hcomp r hr hrp
            refine ⟨if e.promptId = row.1.promptId then f e else e, ?_, ?_⟩
            · rw [updateEntry]
              exact List.mem_map.mpr ⟨e, he, rfl⟩
            · by_cases hkk : e.promptId = row.1.promptId
              · rw [if_pos hkk, hfkey e hkk]
                exact hk
              · rw [if_neg hkk]
                exact hk
          · simp only [List.mem_singleton] at hr
            subst hr
            refine ⟨f e0, ?_, ?_⟩
            · rw [updateEntry]
              exact List.mem_map.mpr ⟨e0, he0mem, by rw [if_pos he0key]⟩
            · rw [hfkey e0 he0key, he0key]
        · intro e he
          obtain ⟨e', he', hee'⟩ := mem_updateEntry he
          by_cases hk : e'.promptId = row.1.promptId
          · have he'e0 : e' = e0 := huniq e' he' hk
            subst he'e0
            rw [if_pos hk] at hee'
            subst hee'
            refine ⟨?_, ?_, ?_⟩
            · simp only [hfdef]
              rw [List.countP_append, hcnt0, he0key]
              simp [List.countP_cons, hrowpasses]
            · refine ⟨row, List.mem_append_right _ (List.mem_singleton_self _), ?_, ?_, ?_⟩
              · simpa [hfdef] using hrowpasses
              · simp [hfdef]
              · simp [hfdef]
            · intro r hr hp
              rcases List.mem_append.mp hr with hr | hr
              · have := hub0 r hr (by
                  simp only [hfdef] at hp
                  rwa [he0key])
                simp only [hfdef]
                linarith
              · simp only [List.mem_singleton] at hr
                subst hr
                simp [hfdef]
          · rw [if_neg hk] at hee'
            subst hee'
            obtain ⟨hcnt, hex, hub⟩ := hent e he'
            have hrowfails : passesFor dist minSim e.promptId row = false := by
              simp only [passesFor, Bool.and_eq_false_iff]
              right
              simpa using fun hkk => hk hkk.symm
            refine ⟨?_, ?_, ?_⟩
            · rw [List.countP_append, hcnt]
              simp [List.countP_cons, hrowfails]
            · obtain ⟨r, hrL, hp⟩ := hex
              exact ⟨r, List.mem_append_left _ hrL, hp⟩
            · intro r hr hp
              rcases List.mem_append.mp hr with hr | hr
              · exact hub r hr hp
              · simp only [List.mem_singleton] at hr
                subst hr
                rw [hrowfails] at hp
                exact absurd hp (by simp)
      · rw [if_neg hlt]
        set f := fun old : RelatedPrompt =>
          ({ old with chunkCount := old.chunkCount + 1 } : RelatedPrompt) with hfdef
        have hfkey : ∀ e : RelatedPrompt, e.promptId = row.1.promptId →
            (f e).promptId = e.promptId := by
          intro e _
          simp [hfdef]
        have hkeys := updateEntry_keys m row.1.promptId f hfkey
        refine ⟨by rw [hkeys]; exact hnd, ?_, ?_⟩
        · intro r hr hrp
          rcases List.mem_append.mp hr with hr | hr
          · obtain ⟨e, he, hk⟩ := hcomp r hr hrp
            refine ⟨if e.promptId = row.1.promptId then f e else e, ?_, ?_⟩
            · rw [updateEntry]
              exact List.mem_map.mpr ⟨e, he, rfl⟩
            · by_cases hkk : e.promptId = row.1.promptId
              · rw [if_pos hkk, hfkey e hkk]
                exact hk
              · rw [if_neg hkk]
                exact hk
          · simp only [List.mem_singleton] at hr
            subst hr
            refine ⟨f e0, ?_, ?_⟩
            · rw [updateEntry]
              exact List.mem_map.mpr ⟨e0, he0mem, by rw [if_pos he0key]⟩
            · rw [hfkey e0 he0key, he0key]
        · intro e he
          obtain ⟨e', he', hee'⟩ := mem_updateEntry he
          by_cases hk : e'.promptId = row.1.promptId
          · have he'e0 : e' = e0 := huniq e' he' hk
            subst he'e0
            rw [if_pos hk] at hee'
            subst hee'
            refine ⟨?_, ?_, ?_⟩
            · simp only [hfdef]
              rw [List.countP_append, hcnt0, he0key]
              simp [List.countP_cons, hrowpasses]
            · obtain ⟨r, hrL, hp, hsc, hbc⟩ := hex0
              exact ⟨r, List.mem_append_left _ hrL, by
                simp only [hfdef]
                exact ⟨hp, hsc, hbc⟩⟩
            · intro r hr hp
              rcases List.mem_append.mp hr with hr | hr
              · have := hub0 r hr (by
                  simp only [hfdef] at hp
                  exact hp)
                simpa [hfdef] using this
              · simp only [List.mem_singleton] at hr
                subst hr
                simp only [hfdef]
                linarith
          · rw [if_neg hk] at hee'
            subst hee'
            obtain ⟨hcnt, hex, hub⟩ := hent e he'
            have hrowfails : passesFor dist minSim e.promptId row = false := by
              simp only [passesFor, Bool.and_eq_false_iff]
              right
              simpa using fun hkk => hk hkk.symm
            refine ⟨?_, ?_, ?_⟩
            · rw [List.countP_append, hcnt]
              simp [List.countP_cons, hrowfails]
            · obtain ⟨r, hrL, hp⟩ := hex
              exact ⟨r, List.mem_append_left _ hrL, hp⟩
            · intro r hr hp
              rcases List.mem_append.mp hr with hr | hr
              · exact hub r hr hp
              · simp only [List.mem_singleton] at hr
                subst hr
                rw [hrowfails] at hp
                exact absurd hp (by simp)

end VectorSearch

namespace VectorSearch

open Store

/-- The full scan of `findRelatedPrompts`: every scored chunk of the
domain, ordered by distance, with no limit. -/
def relatedScan (embs : List Emb) (prompts : List Prompt) (dist : List ℚ → ℚ)
    (domainId : String) : List (Emb × Prompt) :=
  rankByDistance dist (joinPrompts (inScope embs domainId none) prompts)

theorem findRelatedPrompts_eq (embs : List Emb) (prompts : List Prompt)
    (dist : List ℚ → ℚ) (domainId : String) (topK : Nat) (minSim : ℚ) :
    findRelatedPrompts embs prompts dist domainId topK minSim
      = (((relatedScan embs prompts dist domainId).foldl (relatedStep dist minSim)
            []).insertionSort (fun a b => b.maxSimilarity ≤ a.maxSimilarity)).take topK := rfl

theorem relatedInv_foldl (dist : List ℚ → ℚ) (minSim : ℚ) (L : List (Emb × Prompt)) :
    RelatedInv dist minSim L (L.foldl (relatedStep dist minSim) []) := by
  induction L using List.reverseRecOn with
  | nil => exact ⟨by simp, by simp, by simp⟩
  | append_singleton L' row ih =>
    rw [List.foldl_append, List.foldl_cons, List.foldl_nil]
    exact relatedInv_step dist minSim L' _ row ih

end VectorSearch

/-- C4: for all stores, tenants, queries (abstracted by the per-vector
distance), `topK` and `minSimilarity`, `findRelatedPrompts` scans every
scored chunk of the domain with no pre-limit and returns at most `topK`
entries in non-increasing order of best score; no prompt id appears twice;
each entry's `chunkCount` is exactly the number of that prompt's scanned
chunks that passed `minSimilarity`; its `maxSimilarity` is achieved by a
passing chunk of that prompt and bounds every passing chunk's score; and
its `bestChunk` is that achieving chunk's text truncated to 200 characters
plus an ellipsis when longer. -/
theorem findRelatedPrompts_spec (embs : List Store.Emb) (prompts : List Store.Prompt)
    (dist : List ℚ → ℚ) (domainId : String) (topK : Nat) (minSim : ℚ) :
    (VectorSearch.findRelatedPrompts embs prompts dist domainId topK minSim).length ≤ topK
      ∧ (VectorSearch.findRelatedPrompts embs prompts dist domainId topK minSim).Pairwise
          (fun a b => b.maxSimilarity ≤ a.maxSimilarity)
      ∧ ((VectorSearch.findRelatedPrompts embs prompts dist domainId topK minSim).map
          (fun e => e.promptId)).Nodup
      ∧ ∀ e ∈ VectorSearch.findRelatedPrompts embs prompts dist domainId topK minSim,
          e.chunkCount = (VectorSearch.relatedScan embs prompts dist domainId).countP
              (VectorSearch.passesFor dist minSim e.promptId)
            ∧ (∃ row ∈ VectorSearch.relatedScan embs prompts dist domainId,
                VectorSearch.passesFor dist minSim e.promptId row
                  ∧ 1 - dist row.1.vector = e.maxSimilarity
                  ∧ e.bestChunk = VectorSearch.truncateChunk row.1.text)
            ∧ (∀ row ∈ VectorSearch.relatedScan embs prompts dist domainId,
                VectorSearch.passesFor dist minSim e.promptId row →
                  1 - dist row.1.vector ≤ e.maxSimilarity) := by
  have hinv := VectorSearch.relatedInv_foldl dist minSim
    (VectorSearch.relatedScan embs prompts dist domainId)
  obtain ⟨hnd, _, hent⟩ := hinv
  have hperm : List.Perm
      (((VectorSearch.relatedScan embs prompts dist domainId).foldl
        (VectorSearch.relatedStep dist minSim) []).insertionSort
        (fun a b => b.maxSimilarity ≤ a.maxSimilarity))
      ((VectorSearch.relatedScan embs prompts dist domainId).foldl
        (VectorSearch.relatedStep dist minSim) []) :=
    List.perm_insertionSort _ _
  refine ⟨?_, ?_, ?_, ?_⟩
  · rw [VectorSearch.findRelatedPrompts_eq]
    exact List.length_take_le _ _
  · rw [VectorSearch.findRelatedPrompts_eq]
    apply List.Pairwise.sublist (List.take_sublist _ _)
    haveI : IsTotal VectorSearch.RelatedPrompt
        (fun a b => b.maxSimilarity ≤ a.maxSimilarity) :=
      ⟨fun a b => (le_total b.maxSimilarity a.maxSimilarity).imp id id⟩
    haveI : IsTrans VectorSearch.RelatedPrompt
        (fun a b => b.maxSimilarity ≤ a.maxSimilarity) :=
      ⟨fun _ _ _ hab hbc => le_trans hbc hab⟩
    exact List.sorted_insertionSort _ _
  · rw [VectorSearch.findRelatedPrompts_eq]
    have hnd2 := (hperm.map (fun e => e.promptId)).nodup_iff.mpr hnd
    exact List.Nodup.sublist ((List.take_sublist _ _).map _) hnd2
  · intro e he
    rw [VectorSearch.findRelatedPrompts_eq] at he
    have hm : e ∈ (VectorSearch.relatedScan embs prompts dist domainId).foldl
        (VectorSearch.relatedStep dist minSim) [] :=
      hperm.mem_iff.mp (List.mem_of_mem_take he)
    exact hent e hm

namespace EmbeddingService

open Store

/-- A row of the `promptFiles` table (fields used by reindexing). -/
structure PFile where
  id : String
  promptId : String
  filename : String
  mimeType : String
  nextcloudPath : String
deriving DecidableEq

/-- A processed chunk (`ProcessedChunk` in the source). -/
structure ProcessedChunk where
  text : Str
  chunkId : String
  source : String
deriving DecidableEq

/-- The database state visible to the embedding service. -/
structure DB where
  prompts : List Prompt
  promptFiles : List PFile
  embeddings : List Emb
deriving DecidableEq

/-- `EmbeddingService.chunkText` with the service's chunker configuration
(`chunkSize`, `chunkOverlap`, default separators). -/
def chunkText (cs ov : Nat) (text : Str) : List Str :=
  TextChunker.splitText cs ov TextChunker.defaultSeparators text

/-- `EmbeddingService.processPromptContent`: the prompt's own text, when
truthy (neither null nor the empty string), is chunked into chunks tagged
`prompt_<index>`. -/
def processPromptContent (cs ov : Nat) : Option Str → List ProcessedChunk
  | none => []
  | some t =>
    if t = [] then []
    else (chunkText cs ov t).enum.map
      (fun ic => { text := ic.2, chunkId := "prompt_" ++ toString ic.1, source := "prompt" })

/-- `EmbeddingService.processFileContent`: extracted file text is chunked
into chunks tagged `file_<fileId>_<index>`. -/
def processFileContent (cs ov : Nat) (fileId : String) (content : Str)
    (filename : String) : List ProcessedChunk :=
  (chunkText cs ov content).enum.map
    (fun ic => { text := ic.2, chunkId := "file_" ++ fileId ++ "_" ++ toString ic.1,
                 source := "file:" ++ filename })

/-- `EmbeddingService.saveEmbeddings`: nothing is inserted for an empty
chunk list; otherwise one row per chunk is inserted, with the vector
`vectors[index] || []` supplied by the (abstracted) batch embedding call. -/
def saveEmbeddings (embed : List Str → List (List ℚ)) (domainId promptId : String)
    (chunks : List ProcessedChunk) (st : List Emb) : List Emb :=
  if chunks.length = 0 then st
  else
    st ++ chunks.enum.map (fun ic =>
      { id := "", domainId := domainId, promptId := promptId, chunkId := ic.2.chunkId,
        text := ic.2.text,
        vector := (embed (chunks.map (fun c => c.text))).getD ic.1 [] })

/-- `EmbeddingService.deleteEmbeddingsForPrompt`: the `WHERE` clause is
`eq(embeddings.promptId, promptId)` only — the `domainId` parameter is
accepted but not used in the query, exactly as in the source. -/
def deleteEmbeddingsForPrompt (_domainId promptId : String) (st : List Emb) : List Emb :=
  st.filter (fun e => !(e.promptId == promptId))

/-- The per-file loop body of `reindexPrompt`: download and extraction
(abstracted by `extract`, which models
`storage.downloadFile` followed by `contentExtractor.extractText` and can
fail) inside `try { ... } catch { continue }`. -/
def fileLoop (cs ov : Nat) (extract : PFile → Except String Str)
    (acc : List ProcessedChunk) (f : PFile) : List ProcessedChunk :=
  match extract f with
  | Except.error _ => acc
  | Except.ok text => acc ++ processFileContent cs ov f.id text f.filename

/-- `EmbeddingService.reindexPrompt`: delete all embeddings for the prompt
id, load the prompt by id (`limit 1`), fail with "not found" when absent,
chunk the prompt text, process every attached file (skipping failures),
save all collected chunks and return their count, together with the new
database state. -/
def reindexPrompt (cs ov : Nat) (embed : List Str → List (List ℚ))
    (extract : PFile → Except String Str) (domainId promptId : String) (db : DB) :
    Except String Nat × DB :=
  let st1 := deleteEmbeddingsForPrompt domainId promptId db.embeddings
  match db.prompts.find? (fun p => p.id == promptId) with
  | none =>
    (Except.error ("Prompt " ++ promptId ++ " not found"), { db with embeddings := st1 })
  | some prompt =>
    let chunks := processPromptContent cs ov prompt.prompt
    let files := db.promptFiles.filter (fun f => f.promptId == promptId)
    let allChunks := files.foldl (fileLoop cs ov extract) chunks
    (Except.ok allChunks.length,
      { db with embeddings := saveEmbeddings embed domainId promptId allChunks st1 })

/-- The chunk count a file contributes: zero when its fetch or extraction
fails, its chunk count otherwise. -/
def fileChunkCount (cs ov : Nat) (extract : PFile → Except String Str) (f : PFile) : Nat :=
  match extract f with
  | Except.error _ => 0
  | Except.ok text => (processFileContent cs ov f.id text f.filename).length

theorem fileLoop_foldl_length (cs ov : Nat) (extract : PFile → Except String Str) :
    ∀ (files : List PFile) (acc : List ProcessedChunk),
      (files.foldl (fileLoop cs ov extract) acc).length
        = acc.length + (files.map (fileChunkCount cs ov extract)).sum := by
  intro files
  induction files with
  | nil => intro acc; simp
  | cons f rest ih =>
    intro acc
    rw [List.foldl_cons, ih]
    rw [List.map_cons, List.sum_cons]
    cases hf : extract f with
    | error e => simp [fileLoop, hf, fileChunkCount]
    | ok text => simp [fileLoop, hf, fileChunkCount]; omega

theorem saveEmbeddings_length (embed : List Str → List (List ℚ))
    (domainId promptId : String) (chunks : List ProcessedChunk) (st : List Emb) :
    (saveEmbeddings embed domainId promptId chunks st).length
      = st.length + chunks.length := by
  rw [saveEmbeddings]
  by_cases h : chunks.length = 0
  · rw [if_pos h, h]
    omega
  · rw [if_neg h]
    simp [List.enum_length]

end EmbeddingService

/-- C5: for every database, prompt and collection of attached files, with
arbitrary per-file fetch/extraction outcomes, `reindexPrompt` never aborts
on a file failure: failed files are skipped, the prompt's own text and
every successfully extracted file are chunked and persisted, the returned
count is the number of prompt chunks plus the chunks of all successfully
processed files, and exactly that many rows are inserted. -/
theorem reindexPrompt_partial_failure (cs ov : Nat) (embed : List Str → List (List ℚ))
    (extract : EmbeddingService.PFile → Except String Str) (domainId promptId : String)
    (db : EmbeddingService.DB) (prompt : Store.Prompt)
    (hp : db.prompts.find? (fun p => p.id == promptId) = some prompt) :
    (EmbeddingService.reindexPrompt cs ov embed extract domainId promptId db).1
        = Except.ok ((EmbeddingService.processPromptContent cs ov prompt.prompt).length
            + ((db.promptFiles.filter (fun f => f.promptId == promptId)).map
                (EmbeddingService.fileChunkCount cs ov extract)).sum)
      ∧ (EmbeddingService.reindexPrompt cs ov embed extract domainId promptId
            db).2.embeddings.length
          = (EmbeddingService.deleteEmbeddingsForPrompt domainId promptId
              db.embeddings).length
            + (EmbeddingService.processPromptContent cs ov prompt.prompt).length
            + ((db.promptFiles.filter (fun f => f.promptId == promptId)).map
                (EmbeddingService.fileChunkCount cs ov extract)).sum := by
  simp only [EmbeddingService.reindexPrompt, hp]
  constructor
  · rw [EmbeddingService.fileLoop_foldl_length]
  · rw [EmbeddingService.saveEmbeddings_length, EmbeddingService.fileLoop_foldl_length]
    omega

/-- C5 (witness): a prompt with text `"hello world"` (2 chunks at chunk
size 5) and two files, one extracting to `"abc"` (1 chunk) and one whose
extraction fails: reindex returns 3, not an error. -/
theorem reindexPrompt_partial_failure_witness :
    (EmbeddingService.reindexPrompt 5 0 (fun ts => ts.map (fun _ => []))
        (fun f => if f.id == "f1" then Except.ok "abc".toList
                  else Except.error "Unsupported MIME type")
        "tenantA" "p1"
        { prompts := [{ id := "p1", domainId := "tenantA", name := none,
                        description := none, prompt := some "hello world".toList }],
          promptFiles := [{ id := "f1", promptId := "p1", filename := "a.txt",
                            mimeType := "text/plain", nextcloudPath := "/a" },
                          { id := "f2", promptId := "p1", filename := "b.bin",
                            mimeType := "application/octet-stream",
                            nextcloudPath := "/b" }],
          embeddings := [] }).1
      = Except.ok 3 := by
  have h := (reindexPrompt_partial_failure 5 0 (fun ts => ts.map (fun _ => []))
    (fun f => if f.id == "f1" then Except.ok "abc".toList
              else Except.error "Unsupported MIME type")
    "tenantA" "p1"
    { prompts := [{ id := "p1", domainId := "tenantA", name := none,
                    description := none, prompt := some "hello world".toList }],
      promptFiles := [{ id := "f1", promptId := "p1", filename := "a.txt",
                        mimeType := "text/plain", nextcloudPath := "/a" },
                      { id := "f2", promptId := "p1", filename := "b.bin",
                        mimeType := "application/octet-stream",
                        nextcloudPath := "/b" }],
      embeddings := [] }
    { id := "p1", domainId := "tenantA", name := none, description := none,
      prompt := some "hello world".toList } (by decide)).1
  rw [h]
  rfl

/-- C8: whenever the prompt does not exist, `reindexPrompt` raises the
"not found" error, and the returned state shows the delete already
performed and not rolled back: every embedding row of that prompt id is
gone, and the remaining rows are exactly the old rows of other prompts. -/
theorem reindexPrompt_not_found_after_delete (cs ov : Nat)
    (embed : List Str → List (List ℚ))
    (extract : EmbeddingService.PFile → Except String Str) (domainId promptId : String)
    (db : EmbeddingService.DB)
    (hp : db.prompts.find? (fun p => p.id == promptId) = none) :
    (EmbeddingService.reindexPrompt cs ov embed extract domainId promptId db).1
        = Except.error ("Prompt " ++ promptId ++ " not found")
      ∧ (EmbeddingService.reindexPrompt cs ov embed extract domainId promptId
            db).2.embeddings
          = db.embeddings.filter (fun e => !(e.promptId == promptId))
      ∧ ∀ e ∈ (EmbeddingService.reindexPrompt cs ov embed extract domainId promptId
            db).2.embeddings, ¬ e.promptId = promptId := by
  have hred : EmbeddingService.reindexPrompt cs ov embed extract domainId promptId db
      = (Except.error ("Prompt " ++ promptId ++ " not found"),
         { db with embeddings :=
            db.embeddings.filter (fun e => !(e.promptId == promptId)) }) := by
    simp only [EmbeddingService.reindexPrompt, hp]
    rfl
  refine ⟨?_, ?_, ?_⟩
  · rw [hred]
  · rw [hred]
  · intro e he
    rw [hred] at he
    simp only [List.mem_filter] at he
    simpa using he.2

/-- C8 (witness): reindexing a deleted prompt that still has one stored
embedding row returns the not-found error with the row already deleted. -/
theorem reindexPrompt_not_found_after_delete_witness :
    (EmbeddingService.reindexPrompt 1000 200 (fun ts => ts.map (fun _ => []))
        (fun _ => Except.error "") "tenantA" "p1"
        { prompts := [], promptFiles := [],
          embeddings := [{ id := "e1", domainId := "tenantA", promptId := "p1",
                           chunkId := "prompt_0", text := [], vector := [] }] }).1
        = Except.error "Prompt p1 not found"
      ∧ (EmbeddingService.reindexPrompt 1000 200 (fun ts => ts.map (fun _ => []))
          (fun _ => Except.error "") "tenantA" "p1"
          { prompts := [], promptFiles := [],
            embeddings := [{ id := "e1", domainId := "tenantA", promptId := "p1",
                             chunkId := "prompt_0", text := [], vector := [] }] }).2.embeddings
        = [] := by
  have h := reindexPrompt_not_found_after_delete 1000 200 (fun ts => ts.map (fun _ => []))
    (fun _ => Except.error "") "tenantA" "p1"
    { prompts := [], promptFiles := [],
      embeddings := [{ id := "e1", domainId := "tenantA", promptId := "p1",
                       chunkId := "prompt_0", text := [], vector := [] }] } (by decide)
  refine ⟨by rw [h.1]; rfl, by rw [h.2.1]; rfl⟩

/-- C9: the store operations of `reindexPrompt` are *not* tenant-scoped:
`deleteEmbeddingsForPrompt` ignores its tenant argument and the prompt is
loaded by id alone.  Called with tenant `"tenantA"` and a prompt id owned
by `"tenantB"`, reindex deletes tenant B's embedding row, loads tenant B's
prompt instead of failing with not-found, and re-inserts its content under
tenant A. -/
theorem reindex_ignores_tenant_scope :
    ((({ id := "e1", domainId := "tenantB", promptId := "p1", chunkId := "prompt_0",
         text := [], vector := [] } : Store.Emb).domainId ≠ "tenantA")
      ∧ (EmbeddingService.reindexPrompt 1000 200 (fun ts => ts.map (fun _ => []))
          (fun _ => Except.error "") "tenantA" "p1"
          { prompts := [{ id := "p1", domainId := "tenantB", name := none,
                          description := none, prompt := some "hi".toList }],
            promptFiles := [],
            embeddings := [{ id := "e1", domainId := "tenantB", promptId := "p1",
                             chunkId := "prompt_0", text := [], vector := [] }] }).1
        = Except.ok 1
      ∧ ((EmbeddingService.reindexPrompt 1000 200 (fun ts => ts.map (fun _ => []))
          (fun _ => Except.error "") "tenantA" "p1"
          { prompts := [{ id := "p1", domainId := "tenantB", name := none,
                          description := none, prompt := some "hi".toList }],
            promptFiles := [],
            embeddings := [{ id := "e1", domainId := "tenantB", promptId := "p1",
                             chunkId := "prompt_0", text := [], vector := [] }] }).2.embeddings.map
          (fun e => e.domainId))
        = ["tenantA"]) := by
  refine ⟨by decide, by rfl, by rfl⟩

namespace ContentExtractor

mutual

/-- A parsed JSON value (`null`/`undefined` are identified; numbers carry
their integer value, rendered as JavaScript `String(number)` renders
integers). -/
inductive JValue where
  | jnull : JValue
  | jstr : String → JValue
  | jnum : Int → JValue
  | jbool : Bool → JValue
  | jarr : JList → JValue
  | jobj : JFields → JValue

/-- A JSON array's elements. -/
inductive JList where
  | nil : JList
  | cons : JValue → JList → JList

/-- A JSON object's key/value entries, in order. -/
inductive JFields where
  | nil : JFields
  | cons : String → JValue → JFields → JFields

end

/-- `values.join(' ')`. -/
def joinSpace (l : List String) : String := String.intercalate " " l

mutual

/-- `ContentExtractor.stringifyJSON`: null/undefined flatten to the empty
string; strings to themselves; numbers and booleans to their rendering;
arrays space-join their elements' flattened forms (without filtering);
objects map each entry to `"key: value"` — or to the empty string when the
value flattens to empty — then drop empty strings and space-join. -/
def stringifyJSON : JValue → String
  | .jnull => ""
  | .jstr s => s
  | .jnum n => toString n
  | .jbool b => toString b
  | .jarr xs => joinSpace (stringifyList xs)
  | .jobj fs => joinSpace ((stringifyFields fs).filter (fun s => ¬ s = ""))

/-- The mapped flattened forms of an array's elements. -/
def stringifyList : JList → List String
  | .nil => []
  | .cons v t => stringifyJSON v :: stringifyList t

/-- The mapped `"key: value"` strings of an object's entries (empty when
the value flattens to empty). -/
def stringifyFields : JFields → List String
  | .nil => []
  | .cons k v t =>
    (if stringifyJSON v = "" then "" else k ++ ": " ++ stringifyJSON v)
      :: stringifyFields t

end

/-- Concatenation of object entry lists. -/
def JFields.append : JFields → JFields → JFields
  | .nil, gs => gs
  | .cons k v t, gs => .cons k v (JFields.append t gs)

theorem stringifyFields_append :
    ∀ (fs gs : JFields), stringifyFields (JFields.append fs gs)
      = stringifyFields fs ++ stringifyFields gs
  | .nil, _ => rfl
  | .cons k v t, gs => by
    simp [JFields.append, stringifyFields, stringifyFields_append t gs]

end ContentExtractor

/-- C10: in JSON flattening, an object entry whose value recursively
flattens to the empty string — a null, an empty string, an empty array, or
an object all of whose entries flatten to empty — contributes nothing to
the output: removing such an entry anywhere in the object leaves the
flattened text unchanged, so no dangling `"key:"` token is emitted. -/
theorem stringifyJSON_drops_empty_entries (k : String) (v : ContentExtractor.JValue)
    (fs1 fs2 : ContentExtractor.JFields)
    (hv : ContentExtractor.stringifyJSON v = "") :
    ContentExtractor.stringifyJSON
        (.jobj (ContentExtractor.JFields.append fs1 (.cons k v fs2)))
      = ContentExtractor.stringifyJSON (.jobj (ContentExtractor.JFields.append fs1 fs2)) := by
  rw [ContentExtractor.stringifyJSON, ContentExtractor.stringifyJSON]
  rw [ContentExtractor.stringifyFields_append, ContentExtractor.stringifyFields_append]
  rw [ContentExtractor.stringifyFields, if_pos hv]
  rw [List.filter_append, List.filter_append, List.filter_cons]
  simp

/-- C10 (witness): `{"a": "", "b": 1}` flattens to `"b: 1"`, with no
`"a:"` token; likewise a null, an empty array, and an all-empty object are
dropped with their keys. -/
theorem stringifyJSON_drops_empty_entries_witness :
    ContentExtractor.stringifyJSON
        (.jobj (.cons "a" (.jstr "") (.cons "b" (.jnum 1) .nil)))
      = "b: 1"
      ∧ ContentExtractor.stringifyJSON
          (.jobj (.cons "a" .jnull (.cons "b" (.jnum 1) .nil)))
        = "b: 1"
      ∧ ContentExtractor.stringifyJSON
          (.jobj (.cons "a" (.jarr .nil) (.cons "b" (.jnum 1) .nil)))
        = "b: 1"
      ∧ ContentExtractor.stringifyJSON
          (.jobj (.cons "a" (.jobj (.cons "x" .jnull .nil)) (.cons "b" (.jnum 1) .nil)))
        = "b: 1" := by
  refine ⟨?_, ?_, ?_, ?_⟩
  · exact (stringifyJSON_drops_empty_entries "a" (.jstr "") .nil
      (.cons "b" (.jnum 1) .nil) rfl).trans rfl
  · exact (stringifyJSON_drops_empty_entries "a" .jnull .nil
      (.cons "b" (.jnum 1) .nil) rfl).trans rfl
  · exact (stringifyJSON_drops_empty_entries "a" (.jarr .nil) .nil
      (.cons "b" (.jnum 1) .nil) rfl).trans rfl
  · exact (stringifyJSON_drops_empty_entries "a" (.jobj (.cons "x" .jnull .nil)) .nil
      (.cons "b" (.jnum 1) .nil) rfl).trans rfl
